import Mathlib

/-!
Verification of the aggregation core of `aggregator.py` (OpenEMPIRE).

The embedding models pandas DataFrames shallowly:
a vertical table is its grouping-key column(s) plus the numeric value
column (values are `Rat`, the exact counterpart of the numeric cells);
a horizontal table is an ordered list of named columns together with the
row count carried by the index.  Supernode maps and alias dictionaries are
insertion-ordered association lists, matching Python dict iteration order.
-/

/-- A supernode map: supernode name to list of child node names, in
insertion order (Python dicts iterate in insertion order). -/
abbrev Supernodes := List (String × List String)

/-- An alias dictionary (the parsed contents of `config/alpha2.json`). -/
abbrev AliasDict := List (String × String)

/-- Embeds `VerticalAggregationStrategy.map_supernode` (aggregator.py
lines 65-70): iterate the supernode map in order, return the first
supernode whose child list contains `node`, otherwise `node` itself. -/
def map_supernode (node : String) : Supernodes → String
  | [] => node
  | (supernode, child_nodes) :: rest =>
      if node ∈ child_nodes then supernode else map_supernode node rest

/-- Embeds Python `d.get(k, k)`: the value stored under `k`, or `k`
itself when absent. -/
def lookupD (d : AliasDict) (k : String) : String :=
  match d.find? (fun p => p.1 == k) with
  | some p => p.2
  | none => k

/-- A single-grouping-key vertical table: the grouping-key column and the
named numeric value column, as parallel cell lists. -/
structure VTable1 where
  keys : List String
  vals : List Rat
deriving DecidableEq

/-- The in-place column write of aggregator.py line 59:
`data[g0] = data[g0].apply(lambda x: map_supernode(x, supernodes))`. -/
def remap1 (t : VTable1) (s : Supernodes) : VTable1 :=
  { t with keys := t.keys.map (fun x => map_supernode x s) }

/-- Embeds `data.groupby(cols, as_index=False, sort=False)` followed by a
per-group reduction of the value column: groups appear in order of first
appearance of their key (sort=False), each group holding its value cells
in row order. -/
def groupby1 : List (String × Rat) → List (String × List Rat)
  | [] => []
  | r :: rs =>
      (r.1, r.2 :: (rs.filter (fun x => x.1 == r.1)).map Prod.snd)
        :: groupby1 (rs.filter (fun x => !(x.1 == r.1)))
  termination_by rows => rows.length
  decreasing_by
    simp only [List.length_cons]
    exact Nat.lt_succ_of_le (List.length_filter_le _ _)

/-- Embeds `VerticalAggregationStrategy.aggregate` (lines 58-63) in the
single-key, non-transmission configuration.  First component: the state
of the caller's DataFrame after the call (the key column was overwritten
in place); second component: the grouped rows handed to the reduction. -/
def verticalAggregateRun1 (t : VTable1) (s : Supernodes) :
    VTable1 × List (String × List Rat) :=
  (remap1 t s, groupby1 ((remap1 t s).keys.zip (remap1 t s).vals))

/-- Embeds `VerticalAggregationStrategy.sum` (line 48-49):
`aggregate(...).sum(agg_col)`, reducing the one named value column per
group (the behavior the spec fixes for the `.sum(col)` call).  Pairs the
caller-visible table state with the result. -/
def verticalSumRun (t : VTable1) (s : Supernodes) :
    VTable1 × List (String × Rat) :=
  ((verticalAggregateRun1 t s).1,
    (verticalAggregateRun1 t s).2.map (fun g => (g.1, g.2.sum)))

/-- Result table of vertical sum. -/
def verticalSum (t : VTable1) (s : Supernodes) : List (String × Rat) :=
  (verticalSumRun t s).2

/-- Embeds `VerticalAggregationStrategy.mean` (lines 51-52): arithmetic
average of the named value column per group. -/
def verticalMeanRun (t : VTable1) (s : Supernodes) :
    VTable1 × List (String × Rat) :=
  ((verticalAggregateRun1 t s).1,
    (verticalAggregateRun1 t s).2.map
      (fun g => (g.1, g.2.sum / (g.2.length : Rat))))

/-- Result table of vertical mean. -/
def verticalMean (t : VTable1) (s : Supernodes) : List (String × Rat) :=
  (verticalMeanRun t s).2

/-- Embeds `VerticalAggregationStrategy.agg` (lines 54-55):
`aggregate(...).count()`, the number of rows of each group. -/
def verticalCountRun (t : VTable1) (s : Supernodes) :
    VTable1 × List (String × Nat) :=
  ((verticalAggregateRun1 t s).1,
    (verticalAggregateRun1 t s).2.map (fun g => (g.1, g.2.length)))

/-- Result table of vertical count. -/
def verticalCount (t : VTable1) (s : Supernodes) : List (String × Nat) :=
  (verticalCountRun t s).2

/-- Specification-side helper: the value cells of the group keyed `k`
(exactly the rows of the one named value column whose key equals `k`). -/
def groupValues (rows : List (String × Rat)) (k : String) : List Rat :=
  (rows.filter (fun r => r.1 == k)).map Prod.snd

/-- Specification-side helper: first-occurrence deduplication, keeping
each distinct key once in order of first appearance. -/
def dedupFirst : List String → List String
  | [] => []
  | k :: ks => k :: dedupFirst (ks.filter (fun x => !(x == k)))
  termination_by l => l.length
  decreasing_by
    simp only [List.length_cons]
    exact Nat.lt_succ_of_le (List.length_filter_le _ _)

/-- C2: for every string node and every supernode map, `map_supernode`
returns the name of the first supernode (in insertion order) whose child
set contains the node, and returns the node itself when no supernode
contains it; the function is total over all strings. -/
theorem map_supernode_first_match_and_identity (node : String) (s : Supernodes) :
    map_supernode node s
      = (match s.find? (fun p => p.2.contains node) with
         | some p => p.1
         | none => node)
    ∧ ((∀ p ∈ s, node ∉ p.2) → map_supernode node s = node) := by
  constructor
  · induction s with
    | nil => rfl
    | cons hd tl ih =>
      by_cases h : node ∈ hd.2
      · have hc : hd.2.contains node = true := by
          simp [List.contains, List.elem_eq_mem, h]
        simp [map_supernode, List.find?, h, hc]
      · have hc : hd.2.contains node = false := by
          simp [List.contains, List.elem_eq_mem, h]
        simpa [map_supernode, List.find?, h, hc] using ih
  · intro h
    induction s with
    | nil => rfl
    | cons hd tl ih =>
      have h1 : node ∉ hd.2 := h hd (by simp)
      simp only [map_supernode, if_neg h1]
      exact ih (fun p hp => h p (List.mem_cons_of_mem _ hp))

/-- Witness for C2 at a concrete input, identity fallback included for
the empty string. -/
theorem map_supernode_first_match_witness :
    map_supernode "NO1" [("Nordics", ["NO1", "Sweden"]), ("Europe", ["France"])]
      = "Nordics"
    ∧ map_supernode "" [("Nordics", ["NO1", "Sweden"])] = "" := by
  constructor
  · have h := (map_supernode_first_match_and_identity "NO1"
      [("Nordics", ["NO1", "Sweden"]), ("Europe", ["France"])]).1
    simpa using h
  · exact (map_supernode_first_match_and_identity ""
      [("Nordics", ["NO1", "Sweden"])]).2 (by decide)

theorem map_fst_filter_beq (rs : List (String × Rat)) (k : String) :
    (rs.filter (fun x => !(x.1 == k))).map Prod.fst
      = (rs.map Prod.fst).filter (fun x => !(x == k)) := by
  induction rs with
  | nil => rfl
  | cons hd tl ih =>
    by_cases h : hd.1 = k
    · simp [List.filter, h, ih]
    · simp only [List.map_cons, List.filter]
      have hb : (hd.1 == k) = false := beq_false_of_ne h
      simp [hb, ih]

theorem groupValues_cons_self (r : String × Rat) (rs : List (String × Rat)) :
    groupValues (r :: rs) r.1 = r.2 :: groupValues rs r.1 := by
  simp [groupValues, List.filter]

theorem groupValues_cons_ne (r : String × Rat) (rs : List (String × Rat))
    (k : String) (h : ¬(r.1 = k)) :
    groupValues (r :: rs) k = groupValues rs k := by
  simp [groupValues, List.filter, beq_false_of_ne h]

theorem groupValues_filter_ne (rs : List (String × Rat)) (k0 k : String)
    (h : ¬(k = k0)) :
    groupValues (rs.filter (fun x => !(x.1 == k0))) k = groupValues rs k := by
  induction rs with
  | nil => rfl
  | cons hd tl ih =>
    by_cases h1 : hd.1 = k0
    · have h2 : ¬(hd.1 = k) := fun hx => h ((hx.symm.trans h1))
      have hb : (!(hd.1 == k0)) = false := by simp [h1]
      rw [List.filter_cons, hb, if_neg Bool.false_ne_true,
        groupValues_cons_ne hd tl k h2]
      exact ih
    · have hb : (!(hd.1 == k0)) = true := by simp [beq_false_of_ne h1]
      rw [List.filter_cons, hb, if_pos rfl]
      by_cases h2 : hd.1 = k
      · subst h2
        rw [groupValues_cons_self, groupValues_cons_self, ih]
      · rw [groupValues_cons_ne hd _ k h2, groupValues_cons_ne hd tl k h2]
        exact ih

theorem dedupFirst_mem (l : List String) (k : String) (h : k ∈ dedupFirst l) :
    k ∈ l := by
  induction l using dedupFirst.induct with
  | case1 => simp [dedupFirst] at h
  | case2 k0 ks ih =>
    rw [dedupFirst] at h
    rcases List.mem_cons.mp h with h1 | h1
    · simp [h1]
    · exact List.mem_cons_of_mem _ (List.mem_of_mem_filter (ih h1))

theorem groupby1_char (rows : List (String × Rat)) :
    groupby1 rows
      = (dedupFirst (rows.map Prod.fst)).map
          (fun k => (k, groupValues rows k)) := by
  induction rows using groupby1.induct with
  | case1 => simp [groupby1, dedupFirst]
  | case2 r rs ih =>
    rw [groupby1, List.map_cons, dedupFirst, List.map_cons]
    congr 1
    · rw [groupValues_cons_self]
      rfl
    · rw [ih, map_fst_filter_beq]
      refine List.map_congr_left ?_
      intro k hk
      have hk2 : k ∈ (rs.map Prod.fst).filter (fun x => !(x == r.1)) :=
        dedupFirst_mem _ _ hk
      have hne : ¬(k = r.1) := by
        have := List.of_mem_filter hk2
        simpa using this
      rw [groupValues_filter_ne rs r.1 k hne,
        groupValues_cons_ne r rs k (fun hx => hne hx.symm)]

theorem dedupFirst_nodup (l : List String) : (dedupFirst l).Nodup := by
  induction l using dedupFirst.induct with
  | case1 => simp [dedupFirst]
  | case2 k ks ih =>
    rw [dedupFirst]
    refine List.nodup_cons.mpr ⟨?_, ih⟩
    intro hk
    have := List.of_mem_filter (dedupFirst_mem _ _ hk)
    simp at this

/-- C1: vertical aggregation with reduction sum (resp. mean) returns one
row per distinct remapped group key, in first-appearance order, and the
reduced value of each group is the arithmetic total (resp. arithmetic
average) of exactly the one named value column over the rows of that
group. -/
theorem vertical_sum_mean_reduce_named_column (t : VTable1) (s : Supernodes) :
    verticalSum t s
      = (dedupFirst (((remap1 t s).keys.zip t.vals).map Prod.fst)).map
          (fun k => (k, (groupValues ((remap1 t s).keys.zip t.vals) k).sum))
    ∧ verticalMean t s
      = (dedupFirst (((remap1 t s).keys.zip t.vals).map Prod.fst)).map
          (fun k => (k, (groupValues ((remap1 t s).keys.zip t.vals) k).sum
            / ((groupValues ((remap1 t s).keys.zip t.vals) k).length : Rat)))
    ∧ ((verticalSum t s).map Prod.fst).Nodup := by
  refine ⟨?_, ?_, ?_⟩
  · show ((groupby1 _).map _) = _
    rw [groupby1_char, List.map_map]
    rfl
  · show ((groupby1 _).map _) = _
    rw [groupby1_char, List.map_map]
    rfl
  · show (((groupby1 _).map _).map Prod.fst).Nodup
    rw [groupby1_char, List.map_map, List.map_map]
    have : (Prod.fst ∘ fun g : String × List Rat => (g.1, g.2.sum))
        ∘ (fun k => (k, groupValues ((remap1 t s).keys.zip (remap1 t s).vals) k))
        = id := rfl
    rw [this, List.map_id]
    exact dedupFirst_nodup _

/-- A two-grouping-key vertical table (transmission mode): the two
endpoint key columns and the named numeric value column. -/
structure VTable2 where
  keys0 : List String
  keys1 : List String
  vals : List Rat
deriving DecidableEq

/-- Embeds the elementwise comparison `data[g0] != data[g1]` of
aggregator.py line 62 (the boolean row mask). -/
def maskNe (a b : List String) : List Bool :=
  List.zipWith (fun x y => x != y) a b

/-- Embeds boolean-mask row selection `data[mask]`: keep the rows whose
mask cell is true. -/
def filterMask {α : Type} : List α → List Bool → List α
  | [], _ => []
  | _ :: _, [] => []
  | x :: xs, b :: bs => if b then x :: filterMask xs bs else filterMask xs bs

/-- The rows of a two-key table: (first key, second key, value). -/
def rows2 (t : VTable2) : List (String × String × Rat) :=
  t.keys0.zip (t.keys1.zip t.vals)

/-- Embeds `VerticalAggregationStrategy.aggregate` (lines 58-63) with the
transmission flag set: line 59 overwrites the first key column in place,
line 61 the second, and line 62 rebinds `data` to the mask-filtered
frame.  First component: the caller's DataFrame after the call (both key
columns remapped; the row filtering happened on a fresh frame, so the
caller keeps every row); second component: the rows handed to groupby. -/
def verticalAggregateRun2 (t : VTable2) (s : Supernodes) :
    VTable2 × List (String × String × Rat) :=
  let t1 : VTable2 := { t with keys0 := t.keys0.map (fun x => map_supernode x s) }
  let t2 : VTable2 := { t1 with keys1 := t1.keys1.map (fun x => map_supernode x s) }
  let m := maskNe t2.keys0 t2.keys1
  (t2, rows2 { keys0 := filterMask t2.keys0 m
             , keys1 := filterMask t2.keys1 m
             , vals := filterMask t2.vals m })

theorem filterMask_zip_eq (f : String → String) (a : List String) :
    ∀ (b : List String) (c : List Rat),
      a.length = b.length → b.length = c.length →
      ((filterMask (a.map f) (maskNe (a.map f) (b.map f))).zip
        ((filterMask (b.map f) (maskNe (a.map f) (b.map f))).zip
          (filterMask c (maskNe (a.map f) (b.map f)))))
        = ((a.zip (b.zip c)).map
            (fun r => (f r.1, f r.2.1, r.2.2))).filter
            (fun r => r.1 != r.2.1) := by
  induction a with
  | nil =>
    intro b c h0 h1
    simp [maskNe, filterMask]
  | cons x a ih =>
    intro b c h0 h1
    cases b with
    | nil => simp at h0
    | cons y b =>
      cases c with
      | nil => simp at h1
      | cons z c =>
        simp only [List.map_cons, maskNe, List.zipWith_cons_cons]
        have hrec := ih b c (by simpa using h0) (by simpa using h1)
        simp only [maskNe] at hrec
        by_cases h : (f x != f y) = true
        · simp [filterMask, h]
          simpa using hrec
        · have hf : (f x != f y) = false := by
            cases hx : (f x != f y)
            · rfl
            · exact absurd hx h
          simp [filterMask, hf]
          simpa using hrec

/-- C3: with the transmission flag set, vertical aggregation first remaps
both key columns through the supernode resolution and then keeps exactly
the rows whose two remapped endpoints differ, dropping every row whose
two remapped key cells are equal. -/
theorem transmission_remap_then_filter (t : VTable2) (s : Supernodes)
    (h0 : t.keys0.length = t.keys1.length)
    (h1 : t.keys1.length = t.vals.length) :
    (verticalAggregateRun2 t s).2
      = ((rows2 t).map
          (fun r => (map_supernode r.1 s, map_supernode r.2.1 s, r.2.2))).filter
          (fun r => r.1 != r.2.1) := by
  have := filterMask_zip_eq (fun x => map_supernode x s) t.keys0 t.keys1 t.vals h0 h1
  simp only [verticalAggregateRun2, rows2] at this ⊢
  rw [this]

/-- Witness for C3 at the spec's transmission example rows. -/
theorem transmission_remap_then_filter_witness :
    (verticalAggregateRun2 ⟨["A", "A"], ["A", "B"], [5, 2]⟩
        [("X", ["A", "B"])]).2
      = ((rows2 ⟨["A", "A"], ["A", "B"], [5, 2]⟩).map
          (fun r => (map_supernode r.1 [("X", ["A", "B"])],
            map_supernode r.2.1 [("X", ["A", "B"])], r.2.2))).filter
          (fun r => r.1 != r.2.1) :=
  transmission_remap_then_filter ⟨["A", "A"], ["A", "B"], [5, 2]⟩
    [("X", ["A", "B"])] (by decide) (by decide)

theorem verticalSum_keys (t : VTable1) (s : Supernodes) :
    (verticalSum t s).map Prod.fst
      = dedupFirst (((remap1 t s).keys.zip (remap1 t s).vals).map Prod.fst) := by
  show (((groupby1 _).map _).map Prod.fst) = _
  rw [groupby1_char, List.map_map, List.map_map]
  have : (Prod.fst ∘ fun g : String × List Rat => (g.1, g.2.sum))
      ∘ (fun k => (k, groupValues ((remap1 t s).keys.zip (remap1 t s).vals) k))
      = id := rfl
  rw [this, List.map_id]

theorem groupby1_of_nodup_keys (rows : List (String × Rat))
    (h : (rows.map Prod.fst).Nodup) :
    groupby1 rows = rows.map (fun r => (r.1, [r.2])) := by
  induction rows with
  | nil => simp [groupby1]
  | cons r rs ih =>
    rw [groupby1]
    rw [List.map_cons] at h
    have hh := List.nodup_cons.mp h
    have hfil : rs.filter (fun x => x.1 == r.1) = [] := by
      rw [List.filter_eq_nil_iff]
      intro x hx hbeq
      exact hh.1 ((eq_of_beq hbeq) ▸ List.mem_map_of_mem Prod.fst hx)
    have hfil2 : rs.filter (fun x => !(x.1 == r.1)) = rs := by
      rw [List.filter_eq_self]
      intro x hx
      have hne : ¬(x.1 = r.1) :=
        fun he => hh.1 (he ▸ List.mem_map_of_mem Prod.fst hx)
      simp [beq_false_of_ne hne]
    rw [hfil, hfil2, ih hh.2]
    simp

/-- Builds a vertical input table back from an aggregated result table,
for feeding the output of vertical aggregation into a second run. -/
def tableOfRows (l : List (String × Rat)) : VTable1 :=
  { keys := l.map Prod.fst, vals := l.map Prod.snd }

/-- C9 counterexample: with supernodes X:[A], Y:[X], the vertical sum of
the table with keys [A, X] is [(X,1), (Y,2)]; the supernode names X and Y
are both among the keys of that output, yet re-running the same vertical
aggregation on it yields [(Y,3)], not the same table — the claim's subset
condition does not make the second run a no-op. -/
theorem vertical_idempotence_subset_cex :
    ([("X", ["A"]), ("Y", ["X"])].map
        (Prod.fst (α := String) (β := List String)) = ["X", "Y"]
    ∧ "X" ∈ (verticalSum ⟨["A", "X"], [1, 2]⟩
        [("X", ["A"]), ("Y", ["X"])]).map Prod.fst
    ∧ "Y" ∈ (verticalSum ⟨["A", "X"], [1, 2]⟩
        [("X", ["A"]), ("Y", ["X"])]).map Prod.fst)
    ∧ verticalSum (tableOfRows (verticalSum ⟨["A", "X"], [1, 2]⟩
        [("X", ["A"]), ("Y", ["X"])])) [("X", ["A"]), ("Y", ["X"])]
      ≠ verticalSum ⟨["A", "X"], [1, 2]⟩ [("X", ["A"]), ("Y", ["X"])] := by
  refine ⟨⟨by simp, ?_, ?_⟩, ?_⟩ <;>
    simp [verticalSum, verticalSumRun, verticalAggregateRun1, remap1,
      tableOfRows, groupby1, map_supernode]

/-- C9 (amended): running vertical aggregation on its own output is a
no-op — every group has exactly one row and the result equals the input —
provided every key of that output is a fixed point of supernode
resolution (e.g. no output key occurs in any supernode's child set); the
bare condition "supernode names are a subset of the output keys" is not
enough, see the counterexample. -/
theorem vertical_sum_idempotent_on_fixed_keys (t : VTable1) (s : Supernodes)
    (hfix : ∀ k ∈ (verticalSum t s).map Prod.fst, map_supernode k s = k) :
    verticalSum (tableOfRows (verticalSum t s)) s = verticalSum t s
    ∧ (verticalAggregateRun1 (tableOfRows (verticalSum t s)) s).2.map
        (fun g => g.2.length)
      = List.replicate (verticalSum t s).length 1 := by
  have hnodup : ((verticalSum t s).map Prod.fst).Nodup := by
    rw [verticalSum_keys]
    exact dedupFirst_nodup _
  have hkeys : (remap1 (tableOfRows (verticalSum t s)) s).keys
      = (verticalSum t s).map Prod.fst := by
    show ((verticalSum t s).map Prod.fst).map (fun x => map_supernode x s) = _
    calc ((verticalSum t s).map Prod.fst).map (fun x => map_supernode x s)
        = ((verticalSum t s).map Prod.fst).map id :=
          List.map_congr_left (fun a ha => hfix a ha)
      _ = (verticalSum t s).map Prod.fst := List.map_id _
  have hzip : (remap1 (tableOfRows (verticalSum t s)) s).keys.zip
      (remap1 (tableOfRows (verticalSum t s)) s).vals = verticalSum t s := by
    rw [hkeys]
    show ((verticalSum t s).map Prod.fst).zip
      ((verticalSum t s).map Prod.snd) = verticalSum t s
    have h := List.zip_unzip (verticalSum t s)
    rw [List.unzip_eq_map] at h
    simpa using h
  have hgrp : groupby1 ((remap1 (tableOfRows (verticalSum t s)) s).keys.zip
      (remap1 (tableOfRows (verticalSum t s)) s).vals)
      = (verticalSum t s).map (fun r => (r.1, [r.2])) := by
    rw [hzip]
    exact groupby1_of_nodup_keys _ hnodup
  constructor
  · show (groupby1 _).map _ = _
    rw [hgrp, List.map_map]
    have : ((fun g : String × List Rat => (g.1, g.2.sum))
        ∘ fun r : String × Rat => (r.1, [r.2])) = id := by
      funext r
      simp
    rw [this, List.map_id]
  · show (groupby1 _).map _ = _
    rw [hgrp, List.map_map]
    have : ((fun g : String × List Rat => g.2.length)
        ∘ fun r : String × Rat => (r.1, [r.2])) = fun _ => 1 := rfl
    rw [this]
    exact List.map_const' _ 1

/-- Witness for C9 (amended) at a concrete table whose output keys are
fixed points of resolution. -/
theorem vertical_sum_idempotent_witness :
    verticalSum (tableOfRows (verticalSum ⟨["A", "B"], [1, 2]⟩
        [("X", ["A", "B"])])) [("X", ["A", "B"])]
      = verticalSum ⟨["A", "B"], [1, 2]⟩ [("X", ["A", "B"])]
    ∧ (verticalAggregateRun1 (tableOfRows (verticalSum ⟨["A", "B"], [1, 2]⟩
        [("X", ["A", "B"])])) [("X", ["A", "B"])]).2.map
        (fun g => g.2.length)
      = List.replicate (verticalSum ⟨["A", "B"], [1, 2]⟩ [("X", ["A", "B"])]).length 1 :=
  vertical_sum_idempotent_on_fixed_keys ⟨["A", "B"], [1, 2]⟩
    [("X", ["A", "B"])]
    (by simp [verticalSum, verticalSumRun, verticalAggregateRun1, remap1,
      groupby1, map_supernode])

/-- A horizontal table: the pandas DataFrame as an ordered list of named
numeric columns plus the row count carried by the index (the index
outlives column drops, as in pandas). -/
structure HTable where
  nrows : Nat
  cols : List (String × List Rat)
deriving DecidableEq

/-- The column labels, in order (`data.columns`). -/
def colNames (t : HTable) : List String := t.cols.map Prod.fst

/-- Embeds pandas column selection `data[nodes]`: the listed columns, or
a KeyError (carrying the first missing label) when one is absent. -/
def selectCols (t : HTable) : List String → Except String (List (List Rat))
  | [] => .ok []
  | n :: ns =>
      match t.cols.find? (fun c => c.1 == n) with
      | some c =>
          match selectCols t ns with
          | .ok rest => .ok (c.2 :: rest)
          | .error e => .error e
      | none => .error n

/-- Embeds pandas column assignment `data[name] = v`: replace the column
in place when the label exists, else append a new column at the end. -/
def setCol (t : HTable) (name : String) (v : List Rat) : HTable :=
  if t.cols.any (fun c => c.1 == name) then
    { t with cols := t.cols.map (fun c => if c.1 == name then (name, v) else c) }
  else
    { t with cols := t.cols ++ [(name, v)] }

/-- Embeds `data.drop(nodes, axis=1, inplace=True)`: remove every column
whose label is listed. -/
def dropCols (t : HTable) (names : List String) : HTable :=
  { t with cols := t.cols.filter (fun c => !(names.contains c.1)) }

/-- Cell of a column at row index i (columns of a well-formed table have
length nrows, so the default is never consulted there). -/
def cellAt (col : List Rat) (i : Nat) : Rat := (col.getD i 0)

/-- Embeds `data[nodes].sum(axis=1)`: the row-wise sum across the
selected columns; with zero columns selected this is the zero column. -/
def rowwiseSum (cols : List (List Rat)) (n : Nat) : List Rat :=
  (List.range n).map (fun i => (cols.map (fun c => cellAt c i)).sum)

/-- Embeds `data[nodes].mean(axis=1)`: the row-wise arithmetic mean
across the selected columns. -/
def rowwiseMean (cols : List (List Rat)) (n : Nat) : List Rat :=
  (List.range n).map
    (fun i => (cols.map (fun c => cellAt c i)).sum / (cols.length : Rat))

/-- The per-node resolution step inside `alpha2` (aggregator.py lines
97-98): alias-rename the node via the dictionary (identity when absent),
keep it only when the resulting name is among the table's columns. -/
def alphaResolve (d : AliasDict) (cols : List String) (node : String) :
    Option String :=
  if cols.contains (lookupD d node) then some (lookupD d node) else none

/-- Embeds `HorizontalAggregationStrategy.alpha2` (lines 94-98) after the
file read: for each supernode, the effective child-column list, computed
against the table's current columns; misses are silently dropped. -/
def alpha2 (d : AliasDict) (t : HTable) (sns : Supernodes) : Supernodes :=
  sns.map (fun p => (p.1, p.2.filterMap (alphaResolve d (colNames t))))

/-- The loop of `HorizontalAggregationStrategy.sum` (lines 78-80),
threading the caller's DataFrame: assign the row-wise sum column, drop
the child columns; a missing child column raises (KeyError payload in the
second component), leaving the table as mutated so far. -/
def hSumLoopSt : List (String × List String) → HTable → HTable × Option String
  | [], t => (t, none)
  | (sn, nodes) :: rest, t =>
      match selectCols t nodes with
      | .error c => (t, some c)
      | .ok cols =>
          hSumLoopSt rest (dropCols (setCol t sn (rowwiseSum cols t.nrows)) nodes)

/-- The loop of `HorizontalAggregationStrategy.mean` (lines 87-89). -/
def hMeanLoopSt : List (String × List String) → HTable → HTable × Option String
  | [], t => (t, none)
  | (sn, nodes) :: rest, t =>
      match selectCols t nodes with
      | .error c => (t, some c)
      | .ok cols =>
          hMeanLoopSt rest (dropCols (setCol t sn (rowwiseMean cols t.nrows)) nodes)

/-- Embeds `HorizontalAggregationStrategy.sum` (lines 76-82) given the
parsed alias dictionary: effective child lists are computed once against
the original columns, then the loop mutates the table.  First component:
the caller's DataFrame after the call. -/
def horizontalSumRun (d : AliasDict) (t : HTable) (sns : Supernodes) :
    HTable × Option String :=
  hSumLoopSt (alpha2 d t sns) t

/-- The result of horizontal sum: the mutated table, or the raised
KeyError. -/
def horizontalSum (d : AliasDict) (t : HTable) (sns : Supernodes) :
    Except String HTable :=
  match horizontalSumRun d t sns with
  | (u, none) => .ok u
  | (_, some c) => .error c

/-- Embeds `HorizontalAggregationStrategy.mean` (lines 84-91): like sum,
but supernodes whose effective child list is empty are filtered out
before the loop (line 86). -/
def horizontalMeanRun (d : AliasDict) (t : HTable) (sns : Supernodes) :
    HTable × Option String :=
  hMeanLoopSt ((alpha2 d t sns).filter (fun p => !(p.2.isEmpty))) t

/-- The result of horizontal mean. -/
def horizontalMean (d : AliasDict) (t : HTable) (sns : Supernodes) :
    Except String HTable :=
  match horizontalMeanRun d t sns with
  | (u, none) => .ok u
  | (_, some c) => .error c

theorem alphaResolve_eq_some (d : AliasDict) (cols : List String)
    (m c : String) :
    alphaResolve d cols m = some c ↔ (lookupD d m = c ∧ c ∈ cols) := by
  unfold alphaResolve
  by_cases h : cols.contains (lookupD d m) = true
  · rw [if_pos h]
    constructor
    · intro he
      have hc : lookupD d m = c := Option.some.inj he
      refine ⟨hc, ?_⟩
      rw [← hc]
      simpa [List.contains, List.elem_eq_mem] using h
    · intro ⟨h1, _⟩
      rw [h1]
  · rw [if_neg h]
    constructor
    · intro he
      exact absurd he (by simp)
    · intro ⟨h1, h2⟩
      rw [h1] at h
      exact absurd (by simpa [List.contains, List.elem_eq_mem] using h2) h

/-- C7: alias resolution returns the aliased name when the node has an
entry in the alias dictionary and the node itself otherwise; a resolved
name enters a supernode's effective child-column list exactly when it is
among the table's current columns, and names that miss are silently
dropped (alpha2 is total, no error is raised). -/
theorem alias_resolution_and_column_filter (d : AliasDict) (t : HTable)
    (sns : Supernodes) (n sn c : String) (children : List String)
    (pr : String × String) :
    (d.find? (fun p => p.1 == n) = none → lookupD d n = n)
    ∧ (d.find? (fun p => p.1 == n) = some pr → lookupD d n = pr.2)
    ∧ ((sn, children) ∈ sns →
        (sn, children.filterMap (alphaResolve d (colNames t))) ∈ alpha2 d t sns)
    ∧ (c ∈ children.filterMap (alphaResolve d (colNames t))
        ↔ ∃ m ∈ children, lookupD d m = c ∧ c ∈ colNames t) := by
  refine ⟨?_, ?_, ?_, ?_⟩
  · intro h
    simp [lookupD, h]
  · intro h
    simp [lookupD, h]
  · intro h
    exact List.mem_map_of_mem
      (fun p => (p.1, p.2.filterMap (alphaResolve d (colNames t)))) h
  · rw [List.mem_filterMap]
    constructor
    · intro ⟨m, hm, he⟩
      exact ⟨m, hm, (alphaResolve_eq_some d (colNames t) m c).mp he⟩
    · intro ⟨m, hm, he⟩
      exact ⟨m, hm, (alphaResolve_eq_some d (colNames t) m c).mpr he⟩

/-- Witness for C7: the alias PL -> Poland resolves and is kept for a
table having a Poland column; the unmatched node DE is dropped. -/
theorem alias_resolution_and_column_filter_witness :
    lookupD [("PL", "Poland")] "DE" = "DE"
    ∧ ("Baltics", ["PL", "DE"].filterMap
          (alphaResolve [("PL", "Poland")]
            (colNames ⟨1, [("Poland", [3])]⟩)))
        ∈ alpha2 [("PL", "Poland")] ⟨1, [("Poland", [3])]⟩
            [("Baltics", ["PL", "DE"])]
    ∧ ("Poland" ∈ ["PL", "DE"].filterMap
          (alphaResolve [("PL", "Poland")] (colNames ⟨1, [("Poland", [3])]⟩))
        ↔ ∃ m ∈ ["PL", "DE"], lookupD [("PL", "Poland")] m = "Poland"
            ∧ "Poland" ∈ colNames ⟨1, [("Poland", [3])]⟩) :=
  ⟨(alias_resolution_and_column_filter [("PL", "Poland")]
      ⟨1, [("Poland", [3])]⟩ [("Baltics", ["PL", "DE"])] "DE" "Baltics"
      "Poland" ["PL", "DE"] ("", "")).1 (by decide),
   (alias_resolution_and_column_filter [("PL", "Poland")]
      ⟨1, [("Poland", [3])]⟩ [("Baltics", ["PL", "DE"])] "DE" "Baltics"
      "Poland" ["PL", "DE"] ("", "")).2.2.1 (by decide),
   (alias_resolution_and_column_filter [("PL", "Poland")]
      ⟨1, [("Poland", [3])]⟩ [("Baltics", ["PL", "DE"])] "DE" "Baltics"
      "Poland" ["PL", "DE"] ("", "")).2.2.2⟩

theorem rowwiseSum_nil (n : Nat) :
    rowwiseSum [] n = List.replicate n 0 := by
  unfold rowwiseSum
  rw [show (fun i => (List.map (fun c => cellAt c i) []).sum) = fun _ : Nat => (0 : Rat)
    from rfl]
  rw [List.map_const', List.length_range]

theorem dropCols_nil (t : HTable) : dropCols t [] = t := by
  unfold dropCols
  simp

theorem alpha2_names (d : AliasDict) (t : HTable) (sns : Supernodes) :
    (alpha2 d t sns).map Prod.fst = sns.map Prod.fst := by
  unfold alpha2
  rw [List.map_map]
  rfl

theorem assoc_nodup_eq {α β : Type} (l : List (α × β))
    (h : (l.map Prod.fst).Nodup) (k : α) (v1 v2 : β)
    (h1 : (k, v1) ∈ l) (h2 : (k, v2) ∈ l) : v1 = v2 := by
  induction l with
  | nil => cases h1
  | cons hd tl ih =>
    rw [List.map_cons] at h
    have hh := List.nodup_cons.mp h
    rcases List.mem_cons.mp h1 with he1 | he1
    · rcases List.mem_cons.mp h2 with he2 | he2
      · rw [← he1] at he2
        exact (congrArg Prod.snd he2).symm
      · exfalso
        have hmem : k ∈ List.map Prod.fst tl := List.mem_map_of_mem Prod.fst he2
        have hk : hd.1 = k := by rw [← he1]
        rw [hk] at hh
        exact hh.1 hmem
    · rcases List.mem_cons.mp h2 with he2 | he2
      · exfalso
        have hmem : k ∈ List.map Prod.fst tl := List.mem_map_of_mem Prod.fst he1
        have hk : hd.1 = k := by rw [← he2]
        rw [hk] at hh
        exact hh.1 hmem
      · exact ih hh.2 he1 he2

theorem mem_colNames_setCol (t : HTable) (name : String) (v : List Rat)
    (x : String) (h : x ∈ colNames (setCol t name v)) :
    x ∈ colNames t ∨ x = name := by
  unfold setCol at h
  by_cases hany : t.cols.any (fun c => c.1 == name) = true
  · rw [if_pos hany] at h
    simp only [colNames, List.map_map, List.mem_map] at h
    obtain ⟨c, hc, hceq⟩ := h
    by_cases hcn : (c.1 == name) = true
    · right
      simp only [Function.comp, if_pos hcn] at hceq
      exact hceq.symm
    · left
      simp only [Function.comp, if_neg hcn] at hceq
      exact hceq ▸ List.mem_map_of_mem Prod.fst hc
  · rw [if_neg hany] at h
    simp only [colNames, List.map_append, List.mem_append] at h
    rcases h with h | h
    · exact Or.inl h
    · right
      simpa using h

theorem mem_colNames_dropCols (t : HTable) (names : List String)
    (x : String) (h : x ∈ colNames (dropCols t names)) : x ∈ colNames t := by
  unfold dropCols at h
  simp only [colNames, List.mem_map] at h ⊢
  obtain ⟨c, hc, hceq⟩ := h
  exact ⟨c, List.mem_of_mem_filter hc, hceq⟩

theorem hMeanLoopSt_keeps_absent (sn : String) :
    ∀ (l : List (String × List String)) (t : HTable),
      sn ∉ colNames t → sn ∉ l.map Prod.fst →
      sn ∉ colNames (hMeanLoopSt l t).1 := by
  intro l
  induction l with
  | nil =>
    intro t h1 _
    exact h1
  | cons hd rest ih =>
    intro t h1 h2
    obtain ⟨sn2, nodes⟩ := hd
    rw [hMeanLoopSt]
    cases hsel : selectCols t nodes with
    | error c =>
      simpa using h1
    | ok cols =>
      have hne : ¬(sn = sn2) := by
        intro he
        exact h2 (by simp [he])
      refine ih _ ?_ ?_
      · intro hx
        rcases mem_colNames_setCol t sn2 (rowwiseMean cols t.nrows) sn
            (mem_colNames_dropCols _ nodes sn hx) with hy | hy
        · exact h1 hy
        · exact hne hy
      · intro hx
        exact h2 (List.mem_cons_of_mem _ hx)

/-- C4: horizontal sum processes a supernode with an empty effective
child list by emitting a new all-zero column for it, while horizontal
mean omits such a supernode entirely (no column for it appears in the
output); for a non-empty effective list both reductions emit the
row-wise sum resp. mean across the effective child columns and then drop
those child columns. -/
theorem horizontal_empty_group_asymmetry (d : AliasDict) (t : HTable)
    (sns : Supernodes) (sn : String) (rest : List (String × List String))
    (nodes : List String) (cols : List (List Rat)) :
    hSumLoopSt ((sn, []) :: rest) t
      = hSumLoopSt rest (setCol t sn (List.replicate t.nrows 0))
    ∧ ((sns.map Prod.fst).Nodup → (sn, []) ∈ alpha2 d t sns →
        sn ∉ colNames t → sn ∉ colNames (horizontalMeanRun d t sns).1)
    ∧ (selectCols t nodes = .ok cols → ¬(nodes = []) →
        hSumLoopSt ((sn, nodes) :: rest) t
          = hSumLoopSt rest
              (dropCols (setCol t sn (rowwiseSum cols t.nrows)) nodes)
        ∧ hMeanLoopSt ((sn, nodes) :: rest) t
          = hMeanLoopSt rest
              (dropCols (setCol t sn (rowwiseMean cols t.nrows)) nodes)) := by
  refine ⟨?_, ?_, ?_⟩
  · rw [hSumLoopSt]
    show hSumLoopSt rest (dropCols (setCol t sn (rowwiseSum [] t.nrows)) [])
      = _
    rw [rowwiseSum_nil, dropCols_nil]
  · intro hnd hmem hnotcol
    unfold horizontalMeanRun
    apply hMeanLoopSt_keeps_absent sn _ t hnotcol
    intro hsn
    obtain ⟨p, hp, hpe⟩ := List.mem_map.mp hsn
    obtain ⟨p1, p2⟩ := p
    have hpa : (p1, p2) ∈ alpha2 d t sns := List.mem_of_mem_filter hp
    have hpemp := List.of_mem_filter hp
    have hnda : ((alpha2 d t sns).map Prod.fst).Nodup := by
      rw [alpha2_names]
      exact hnd
    rw [show p1 = sn from hpe] at hpa
    have h0 : ([] : List String) = p2 := assoc_nodup_eq _ hnda sn _ _ hmem hpa
    rw [← h0] at hpemp
    simp at hpemp
  · intro hsel hne
    constructor
    · rw [hSumLoopSt, hsel]
    · rw [hMeanLoopSt, hsel]

/-- Witness for C4 at a concrete table and supernode map: supernode E has
an empty effective list (sum emits a zero column, mean omits E), and
supernode X has the non-empty effective list [A]. -/
theorem horizontal_empty_group_asymmetry_witness :
    hSumLoopSt [("E", [])] ⟨1, [("A", [5])]⟩
      = hSumLoopSt [] (setCol ⟨1, [("A", [5])]⟩ "E" (List.replicate 1 0))
    ∧ "E" ∉ colNames (horizontalMeanRun []
        ⟨1, [("A", [5])]⟩ [("E", []), ("X", ["A"])]).1
    ∧ (hSumLoopSt [("X", ["A"])] ⟨1, [("A", [5])]⟩
        = hSumLoopSt []
            (dropCols (setCol ⟨1, [("A", [5])]⟩ "X"
              (rowwiseSum [[5]] 1)) ["A"])
      ∧ hMeanLoopSt [("X", ["A"])] ⟨1, [("A", [5])]⟩
        = hMeanLoopSt []
            (dropCols (setCol ⟨1, [("A", [5])]⟩ "X"
              (rowwiseMean [[5]] 1)) ["A"])) :=
  ⟨(horizontal_empty_group_asymmetry [] ⟨1, [("A", [5])]⟩
      [("E", []), ("X", ["A"])] "E" [] ["A"] [[5]]).1,
   (horizontal_empty_group_asymmetry [] ⟨1, [("A", [5])]⟩
      [("E", []), ("X", ["A"])] "E" [] ["A"] [[5]]).2.1
      (by decide) (by decide) (by decide),
   (horizontal_empty_group_asymmetry [] ⟨1, [("A", [5])]⟩
      [("E", []), ("X", ["A"])] "X" [] ["A"] [[5]]).2.2
      (by rfl) (by decide)⟩

/-- Two distinct entries of a supernode list both list the column c among
their (effective) children. -/
def sharesColumn (l : List (String × List String)) (c : String) : Prop :=
  ∃ l1 p1 l2 p2 l3, l = l1 ++ p1 :: l2 ++ p2 :: l3 ∧ c ∈ p1.2 ∧ c ∈ p2.2

theorem selectCols_ok_mem (t : HTable) :
    ∀ (nodes : List String) (cols : List (List Rat)),
      selectCols t nodes = .ok cols → ∀ n ∈ nodes, n ∈ colNames t := by
  intro nodes
  induction nodes with
  | nil =>
    intro cols _ n hn
    cases hn
  | cons m ms ih =>
    intro cols hok n hn
    rw [selectCols] at hok
    cases hf : t.cols.find? (fun c => c.1 == m) with
    | none =>
      rw [hf] at hok
      exact Except.noConfusion hok
    | some cfound =>
      rw [hf] at hok
      rcases List.mem_cons.mp hn with he | he
      · have hmem := List.mem_of_find?_eq_some hf
        have hbeq : cfound.1 = m := by simpa using List.find?_some hf
        subst he
        rw [← hbeq]
        exact List.mem_map_of_mem Prod.fst hmem
      · cases hrec : selectCols t ms with
        | ok rest => exact ih rest hrec n he
        | error e =>
          rw [hrec] at hok
          exact Except.noConfusion hok

theorem not_mem_colNames_dropCols (t : HTable) (names : List String)
    (c : String) (h : c ∈ names) : c ∉ colNames (dropCols t names) := by
  intro hmem
  unfold dropCols colNames at hmem
  simp only [List.mem_map] at hmem
  obtain ⟨col, hcol, hceq⟩ := hmem
  have hf := List.of_mem_filter hcol
  rw [hceq] at hf
  simp [List.contains, List.elem_eq_mem, h] at hf

theorem hSumLoopSt_absent (c : String) :
    ∀ (l : List (String × List String)) (t : HTable),
      c ∉ colNames t → c ∉ l.map Prod.fst → (∃ p ∈ l, c ∈ p.2) →
      (hSumLoopSt l t).2.isSome = true := by
  intro l
  induction l with
  | nil =>
    intro t _ _ hex
    obtain ⟨p, hp, _⟩ := hex
    cases hp
  | cons hd rest ih =>
    intro t h1 h2 hex
    obtain ⟨s0, nodes⟩ := hd
    rw [hSumLoopSt]
    cases hsel : selectCols t nodes with
    | error e => rfl
    | ok cols =>
      have hcn : c ∉ nodes := by
        intro hc
        exact h1 (selectCols_ok_mem t nodes cols hsel c hc)
      have hex2 : ∃ p ∈ rest, c ∈ p.2 := by
        obtain ⟨p, hp, hpc⟩ := hex
        rcases List.mem_cons.mp hp with he | he
        · rw [he] at hpc
          exact absurd hpc hcn
        · exact ⟨p, he, hpc⟩
      refine ih _ ?_ ?_ hex2
      · intro hx
        rcases mem_colNames_setCol t s0 (rowwiseSum cols t.nrows) c
            (mem_colNames_dropCols _ nodes c hx) with hy | hy
        · exact h1 hy
        · exact h2 (by simp [hy])
      · intro hx
        exact h2 (List.mem_cons_of_mem _ hx)

theorem hSumLoopSt_shared (c : String) :
    ∀ (l1 : List (String × List String)) (p1 : String × List String)
      (l2 : List (String × List String)) (p2 : String × List String)
      (l3 : List (String × List String)) (t : HTable),
      c ∉ (l1 ++ p1 :: l2 ++ p2 :: l3).map Prod.fst →
      c ∈ p1.2 → c ∈ p2.2 →
      (hSumLoopSt (l1 ++ p1 :: l2 ++ p2 :: l3) t).2.isSome = true := by
  intro l1
  induction l1 with
  | nil =>
    intro p1 l2 p2 l3 t hc h1 h2
    obtain ⟨s0, nodes⟩ := p1
    rw [List.nil_append]
    simp only [hSumLoopSt]
    cases hsel : selectCols t nodes with
    | error e => rfl
    | ok cols =>
      refine hSumLoopSt_absent c (l2 ++ p2 :: l3) _ ?_ ?_
        ⟨p2, List.mem_append_right _ (List.mem_cons_self _ _), h2⟩
      · exact not_mem_colNames_dropCols _ nodes c h1
      · intro hx
        refine hc ?_
        simp only [List.nil_append, List.map_cons, List.map_append,
          List.mem_cons, List.mem_append] at hx ⊢
        tauto
  | cons q l1 ih =>
    intro p1 l2 p2 l3 t hc h1 h2
    obtain ⟨s0, nodes⟩ := q
    rw [List.cons_append]
    simp only [hSumLoopSt]
    cases hsel : selectCols t nodes with
    | error e => rfl
    | ok cols =>
      refine ih p1 l2 p2 l3 _ ?_ h1 h2
      intro hx
      refine hc ?_
      simp only [List.cons_append, List.map_cons, List.map_append,
        List.mem_cons, List.mem_append] at hx ⊢
      tauto

/-- C10 counterexample: supernodes S1:[c], c:[d], S3:[c] over a table
with columns c and d: the distinct supernodes S1 and S3 share the
effective child column c, yet horizontal sum succeeds and returns a
table, because the intermediate supernode named c re-creates the dropped
column — the claim's universal "the call raises" is false. -/
theorem shared_child_column_can_succeed_cex :
    ("S1" : String) ≠ "S3"
    ∧ sharesColumn (alpha2 [] ⟨1, [("c", [1]), ("d", [2])]⟩
        [("S1", ["c"]), ("c", ["d"]), ("S3", ["c"])]) "c"
    ∧ horizontalSum [] ⟨1, [("c", [1]), ("d", [2])]⟩
        [("S1", ["c"]), ("c", ["d"]), ("S3", ["c"])]
      = Except.ok ⟨1, [("S1", [1]), ("S3", [2])]⟩ := by
  refine ⟨by decide, ?_, ?_⟩
  · exact ⟨[], ("S1", ["c"]), [("c", ["d"])], ("S3", ["c"]), [],
      by decide, by decide, by decide⟩
  · have h : horizontalSumRun [] ⟨1, [("c", [1]), ("d", [2])]⟩
        [("S1", ["c"]), ("c", ["d"]), ("S3", ["c"])]
        = (⟨1, [("S1", [1]), ("S3", [2])]⟩, none) := by
      simp [horizontalSumRun, hSumLoopSt, alpha2, alphaResolve, lookupD,
        colNames, selectCols, setCol, dropCols, rowwiseSum, cellAt,
        List.range, List.range.loop]
    unfold horizontalSum
    rw [h]

/-- C10 (amended): when two distinct supernodes' effective child-column
lists share a column, horizontal sum raises (the shared column was
dropped when the earlier supernode was processed) and never returns a
result table — provided no supernode is itself named like the shared
column (a supernode named after it would re-create the dropped column;
see the counterexample). -/
theorem shared_child_column_raises (d : AliasDict) (t : HTable)
    (sns : Supernodes) (c : String)
    (hname : c ∉ sns.map Prod.fst)
    (hshare : sharesColumn (alpha2 d t sns) c) :
    (horizontalSumRun d t sns).2.isSome = true
    ∧ ∀ u, horizontalSum d t sns ≠ Except.ok u := by
  obtain ⟨l1, p1, l2, p2, l3, heq, h1, h2⟩ := hshare
  have hnames : c ∉ (l1 ++ p1 :: l2 ++ p2 :: l3).map Prod.fst := by
    rw [← heq, alpha2_names]
    exact hname
  have hrun : (horizontalSumRun d t sns).2.isSome = true := by
    unfold horizontalSumRun
    rw [heq]
    exact hSumLoopSt_shared c l1 p1 l2 p2 l3 t hnames h1 h2
  refine ⟨hrun, ?_⟩
  intro u hok
  unfold horizontalSum at hok
  cases hr : horizontalSumRun d t sns with
  | mk tb err =>
    rw [hr] at hok hrun
    cases err with
    | none => simp at hrun
    | some e => exact Except.noConfusion hok

/-- Witness for C10 (amended): supernodes X:[A], Y:[A] over a table with
columns A and B — processing X drops A, processing Y raises. -/
theorem shared_child_column_raises_witness :
    (horizontalSumRun [] ⟨1, [("A", [1]), ("B", [2])]⟩
        [("X", ["A"]), ("Y", ["A"])]).2.isSome = true
    ∧ horizontalSum [] ⟨1, [("A", [1]), ("B", [2])]⟩
        [("X", ["A"]), ("Y", ["A"])]
      ≠ Except.ok ⟨1, [("B", [2])]⟩ :=
  ⟨(shared_child_column_raises [] ⟨1, [("A", [1]), ("B", [2])]⟩
      [("X", ["A"]), ("Y", ["A"])] "A" (by decide)
      ⟨[], ("X", ["A"]), [], ("Y", ["A"]), [], by decide, by decide, by decide⟩).1,
   (shared_child_column_raises [] ⟨1, [("A", [1]), ("B", [2])]⟩
      [("X", ["A"]), ("Y", ["A"])] "A" (by decide)
      ⟨[], ("X", ["A"]), [], ("Y", ["A"]), [], by decide, by decide, by decide⟩).2
      ⟨1, [("B", [2])]⟩⟩

/-- The file system visible to the core, as path to parsed-JSON pairs
(only `config/alpha2.json` is ever relevant to the strategies). -/
abbrev FileSystem := List (String × AliasDict)

/-- Embeds the `with open('config/alpha2.json') ... json.load(f)` prelude
of `HorizontalAggregationStrategy.alpha2` (lines 95-96). -/
def readAlpha2 (fs : FileSystem) : Option AliasDict :=
  match fs.find? (fun p => p.1 == "config/alpha2.json") with
  | some p => some p.2
  | none => none

/-- `HorizontalAggregationStrategy.sum` with its file-read effect traced:
the second component lists the paths the call opens. -/
def horizontalSumTraced (fs : FileSystem) (t : HTable) (sns : Supernodes) :
    Except String HTable × List String :=
  match readAlpha2 fs with
  | some d => (horizontalSum d t sns, ["config/alpha2.json"])
  | none => (.error "config/alpha2.json", ["config/alpha2.json"])

/-- `HorizontalAggregationStrategy.mean` with its file-read effect
traced. -/
def horizontalMeanTraced (fs : FileSystem) (t : HTable) (sns : Supernodes) :
    Except String HTable × List String :=
  match readAlpha2 fs with
  | some d => (horizontalMean d t sns, ["config/alpha2.json"])
  | none => (.error "config/alpha2.json", ["config/alpha2.json"])

/-- `VerticalAggregationStrategy.sum` with its file-read effect traced:
the vertical strategy opens nothing. -/
def verticalSumTraced (t : VTable1) (s : Supernodes) :
    List (String × Rat) × List String :=
  (verticalSum t s, [])

/-- `VerticalAggregationStrategy.mean`, traced. -/
def verticalMeanTraced (t : VTable1) (s : Supernodes) :
    List (String × Rat) × List String :=
  (verticalMean t s, [])

/-- `VerticalAggregationStrategy.agg` (count), traced. -/
def verticalCountTraced (t : VTable1) (s : Supernodes) :
    List (String × Nat) × List String :=
  (verticalCount t s, [])

/-- C5: contrary to the claim, the horizontal strategy itself opens the
file `config/alpha2.json` inside `alpha2` on every sum and mean call;
only the vertical strategy's calls read nothing. -/
theorem horizontal_calls_read_config_file (fs : FileSystem) (t : HTable)
    (sns : Supernodes) (v : VTable1) :
    (horizontalSumTraced fs t sns).2 = ["config/alpha2.json"]
    ∧ (horizontalMeanTraced fs t sns).2 = ["config/alpha2.json"]
    ∧ (verticalSumTraced v sns).2 = []
    ∧ (verticalMeanTraced v sns).2 = []
    ∧ (verticalCountTraced v sns).2 = [] := by
  refine ⟨?_, ?_, rfl, rfl, rfl⟩
  · unfold horizontalSumTraced
    cases readAlpha2 fs <;> rfl
  · unfold horizontalMeanTraced
    cases readAlpha2 fs <;> rfl

/-- The error conditions an aggregation call can surface. -/
inductive AggError
  | unsupportedOperation
deriving DecidableEq

/-- The service (`Aggregator`, lines 100-113) bound to the horizontal
strategy: it holds the table and supernode map. -/
structure HAggregator where
  data : HTable
  supernodes : Supernodes

/-- Embeds `Aggregator.agg` (lines 112-113) for a horizontal strategy:
the call delegates to `aggregation_strategy.agg`, and
`HorizontalAggregationStrategy` defines no such method, so the call
raises (Python AttributeError, the UnsupportedOperation condition of the
spec) and never produces a table. -/
def HAggregator.agg (_a : HAggregator) : Except AggError HTable :=
  Except.error AggError.unsupportedOperation

/-- C6: requesting the count operation on the service when the bound
strategy is the horizontal aggregator fails with the
UnsupportedOperation condition; it never returns a result table. -/
theorem horizontal_count_unsupported (a : HAggregator) :
    a.agg = Except.error AggError.unsupportedOperation := rfl

/-- C8 counterexample: vertical sum overwrites the caller's grouping-key
column in place — after the call the caller's table holds the remapped
key X, not the original A, so no defensive copy is made. -/
theorem caller_table_not_preserved_cex :
    (verticalSumRun ⟨["A"], [1]⟩ [("X", ["A"])]).1 ≠ ⟨["A"], [1]⟩ := by
  decide

/-- C8 (amended): the implementation mutates the caller's table in
place: after any vertical call the caller's key column(s) hold the
remapped supernode names (the value column is untouched and, in
transmission mode, the row filtering happens on a fresh frame, so the
caller keeps all rows); a successful horizontal call returns the
caller's own table, mutated by the column additions and drops. -/
theorem caller_table_mutated_in_place (t1 : VTable1) (t2 : VTable2)
    (s : Supernodes) (d : AliasDict) (t : HTable) (sns : Supernodes) :
    (verticalSumRun t1 s).1 = remap1 t1 s
    ∧ (verticalMeanRun t1 s).1 = remap1 t1 s
    ∧ (verticalCountRun t1 s).1 = remap1 t1 s
    ∧ (verticalAggregateRun2 t2 s).1
        = { t2 with keys0 := t2.keys0.map (fun x => map_supernode x s)
                  , keys1 := t2.keys1.map (fun x => map_supernode x s) }
    ∧ (verticalAggregateRun2 t2 s).1.vals = t2.vals
    ∧ (∀ u, horizontalSum d t sns = Except.ok u →
        (horizontalSumRun d t sns).1 = u)
    ∧ (∀ u, horizontalMean d t sns = Except.ok u →
        (horizontalMeanRun d t sns).1 = u) := by
  refine ⟨rfl, rfl, rfl, rfl, rfl, ?_, ?_⟩
  · intro u hok
    unfold horizontalSum at hok
    cases hr : horizontalSumRun d t sns with
    | mk tb err =>
      rw [hr] at hok
      cases err with
      | none =>
        have htb : tb = u := Except.ok.inj hok
        exact htb
      | some e => exact Except.noConfusion hok
  · intro u hok
    unfold horizontalMean at hok
    cases hr : horizontalMeanRun d t sns with
    | mk tb err =>
      rw [hr] at hok
      cases err with
      | none =>
        have htb : tb = u := Except.ok.inj hok
        exact htb
      | some e => exact Except.noConfusion hok

/-- Witness for C8 (amended) at concrete tables. -/
theorem caller_table_mutated_witness :
    (verticalSumRun ⟨["A"], [1]⟩ [("X", ["A"])]).1
      = remap1 ⟨["A"], [1]⟩ [("X", ["A"])]
    ∧ (horizontalSumRun [] ⟨1, [("A", [5])]⟩ [("X", ["A"])]).1
      = ⟨1, [("X", [5])]⟩ :=
  ⟨(caller_table_mutated_in_place ⟨["A"], [1]⟩ ⟨[], [], []⟩ [("X", ["A"])]
      [] ⟨1, [("A", [5])]⟩ [("X", ["A"])]).1,
   (caller_table_mutated_in_place ⟨["A"], [1]⟩ ⟨[], [], []⟩ [("X", ["A"])]
      [] ⟨1, [("A", [5])]⟩ [("X", ["A"])]).2.2.2.2.2.1 ⟨1, [("X", [5])]⟩
      (by simp [horizontalSum, horizontalSumRun, hSumLoopSt, alpha2,
        alphaResolve, lookupD, colNames, selectCols, setCol, dropCols,
        rowwiseSum, cellAt, List.range, List.range.loop])⟩
